import Mathlib

/-!
Verification development for the CapitalYou-Card repository.

The repository consists of a React frontend (`frontend/src`), a FastAPI
backend, and a Python merchant-categorization model.  The frontend
JavaScript is embedded below directly from the source files
(`services/database.js`, `pages/DashboardPage.jsx`,
`components/CategoryDial.jsx`).  The backend / ML Python sources
(`train.py`, the normalizer `preprocess_merchant_series`, the inference
engine) are not present in the repository snapshot — only their READMEs
and callers are — so those components are modelled from the
specification's contracts (each such definition carries a
`Modelled from the spec:` doc comment).

JavaScript numbers are modelled as exact rationals (`ℚ`); a JS value
that may be `null`/`undefined`/non-numeric (`NaN`) is modelled as
`Option ℚ` with `none` for the non-numeric case.
-/

/-- JS truthiness defaulting for numbers: `v || d` yields `d` when `v` is
`null`/`undefined`/`NaN` (modelled `none`) or `0` (both falsy), else `v`. -/
def jsOr (v : Option ℚ) (d : ℚ) : ℚ :=
  match v with
  | none => d
  | some x => if x = 0 then d else x

/-- JS `Number(x) || 0`: a non-numeric value coerces to `NaN` and then
defaults to `0`; a numeric value is returned unchanged (`0` is falsy but
defaults to `0` anyway). -/
def jsNum (v : Option ℚ) : ℚ := v.getD 0

/-- JS `Math.round`: rounds half away from zero toward positive infinity
(`Math.round (-0.5) = -0`), i.e. `⌊q + 1/2⌋`. -/
def jsRound (q : ℚ) : ℤ := ⌊q + 1/2⌋

/-! ### `frontend/src/components/CategoryDial.jsx`

The component computes `clampedPercentage`, a fill angle, a large-arc
flag, and a filled SVG path that is the empty string when the clamped
percentage is not positive; the JSX then renders the filled arc only
under the condition `clampedPercentage > 0 && filledPath`.  The
trigonometric endpoint coordinates (`endX`, `endY`) feed only into the
path string's text and are omitted here. -/

/-- From `CategoryDial.jsx`: `Math.max(0, Math.min(100, percentage))`. -/
def clampedPercentage (percentage : ℚ) : ℚ := max 0 (min 100 percentage)

/-- From `CategoryDial.jsx`: `(clampedPercentage / 100) * 180`. -/
def fillAngle (percentage : ℚ) : ℚ := clampedPercentage percentage / 100 * 180

/-- From `CategoryDial.jsx`: `fillAngle > 90 ? 1 : 0`. -/
def largeArcFlag (percentage : ℚ) : ℕ := if 90 < fillAngle percentage then 1 else 0

/-- Abstract content of the filled SVG path string (the numeric endpoint
coordinates are trigonometric and irrelevant to the rendering condition). -/
structure ArcSpec where
  largeArc : ℕ
deriving DecidableEq

/-- From `CategoryDial.jsx`: `filledPath` is a non-empty path string when
`clampedPercentage > 0` and the empty string (modelled `none`) otherwise. -/
def filledPath (percentage : ℚ) : Option ArcSpec :=
  if 0 < clampedPercentage percentage then some ⟨largeArcFlag percentage⟩ else none

/-- From `CategoryDial.jsx` render: the filled arc element is emitted under
`clampedPercentage > 0 && filledPath` (a non-empty string is truthy). -/
def filledArcDrawn (percentage : ℚ) : Bool :=
  decide (0 < clampedPercentage percentage) && (filledPath percentage).isSome

/-! ### `frontend/src/pages/DashboardPage.jsx` — `computeMultipliers` -/

/-- Input category entry as consumed by `computeMultipliers`: only the
`percentage_of_spend` field is read (others are spread through unchanged);
`none` models a non-numeric stored value. -/
structure DialEntry where
  category : String
  percentage_of_spend : Option ℚ
deriving DecidableEq

/-- Output entry of `computeMultipliers`: the normalized percentage and the
computed `points_multiplier`. -/
structure MultiplierEntry where
  category : String
  percentage_of_spend : ℚ
  points_multiplier : ℚ
deriving DecidableEq

/-- From `DashboardPage.jsx` lines 51–73:
empty input returns `[]`; otherwise percentages are normalized with
`Number(x) || 0`, `maxPercentage = Math.max(...percentages, 0)`; if the
max is `0` every multiplier is `1`, else each multiplier is
`Math.max(1, Math.round((5 * (p / maxPercentage)) * 10) / 10)`. -/
def computeMultipliers (categories : List DialEntry) : List MultiplierEntry :=
  if categories.isEmpty then []
  else
    let normalized := categories.map (fun e => (e.category, jsNum e.percentage_of_spend))
    let maxPercentage := (normalized.map (fun e => e.2)).foldl max 0
    if maxPercentage = 0 then
      normalized.map (fun e => ⟨e.1, e.2, 1⟩)
    else
      normalized.map (fun e =>
        ⟨e.1, e.2, max 1 ((jsRound (5 * (e.2 / maxPercentage) * 10) : ℚ) / 10)⟩)

/-- The `maxPercentage` value computed inside `computeMultipliers`. -/
def maxPercentageOf (categories : List DialEntry) : ℚ :=
  (categories.map (fun e => jsNum e.percentage_of_spend)).foldl max 0

/-! ### `frontend/src/services/database.js` — `getAggregatedSummary`

A stored summary row holds a `total_spent` value and a `categories`
JSON array; each stored category entry holds `category`, `total_spent`
and `points_multiplier`.  The code guards every numeric read with
`parseFloat(x || 0)` (identity on numeric values, `0` on `null`) and the
array read with `summary.categories || []`. -/

/-- Stored category entry inside a `category_summaries` row. -/
structure StoredCategory where
  category : String
  total_spent : Option ℚ
  points_multiplier : Option ℚ
deriving DecidableEq

/-- Stored `category_summaries` row as returned by `getAllSummaries`. -/
structure StoredSummary where
  total_spent : Option ℚ
  categories : Option (List StoredCategory)
deriving DecidableEq

/-- Aggregated per-category accumulator entry (`categoryMap[name]`). -/
structure AggCategory where
  category : String
  total_spent : ℚ
  points_multiplier : ℚ
deriving DecidableEq

/-- Output category entry of `getAggregatedSummary` (accumulator entry
plus the computed `percentage_of_spend`). -/
structure OutCategory where
  category : String
  total_spent : ℚ
  points_multiplier : ℚ
  percentage_of_spend : ℚ
deriving DecidableEq

/-- Output of `getAggregatedSummary`. -/
structure AggregatedSummary where
  total_spent : ℚ
  categories : List OutCategory
deriving DecidableEq

/-- From `database.js` lines 100–110: one step of the `categoryMap`
accumulation — create the entry (with `points_multiplier || 1`) on first
sight of a category name, then add `parseFloat(cat.total_spent || 0)`. -/
def addCat (m : List AggCategory) (c : StoredCategory) : List AggCategory :=
  if m.any (fun e => e.category = c.category) then
    m.map (fun e =>
      if e.category = c.category
      then { e with total_spent := e.total_spent + jsOr c.total_spent 0 }
      else e)
  else
    m ++ [⟨c.category, jsOr c.total_spent 0, jsOr c.points_multiplier 1⟩]

/-- From `database.js`: `summary.categories || []`. -/
def summaryCats (s : StoredSummary) : List StoredCategory := s.categories.getD []

/-- From `database.js` lines 84–123: `getAggregatedSummary` over the list
of stored rows (the Supabase fetch itself is the excluded I/O layer).
Empty input returns `{total_spent: 0, categories: []}`; otherwise the
rows' totals are summed, categories are accumulated per name, percentages
are computed against the overall total, and the result is sorted by the
comparator `(a, b) => b.total_spent - a.total_spent`. -/
def getAggregatedSummary (summaries : List StoredSummary) : AggregatedSummary :=
  if summaries.isEmpty then ⟨0, []⟩
  else
    let totalSpent := summaries.foldl (fun acc s => acc + jsOr s.total_spent 0) 0
    let categoryMap := summaries.foldl
      (fun m s => (summaryCats s).foldl addCat m) ([] : List AggCategory)
    let categories := categoryMap.map (fun c =>
      OutCategory.mk c.category c.total_spent c.points_multiplier
        (if 0 < totalSpent then c.total_spent / totalSpent * 100 else 0))
    ⟨totalSpent, categories.mergeSort (fun a b => decide (b.total_spent ≤ a.total_spent))⟩

/-- Flattened list of all stored category entries across the rows, in
iteration order. -/
def allStoredCats : List StoredSummary → List StoredCategory
  | [] => []
  | s :: ss => summaryCats s ++ allStoredCats ss

/-- Every distinct and duplicate category name appearing in any row. -/
def catNames (ss : List StoredSummary) : List String :=
  (allStoredCats ss).map (fun c => c.category)

/-- Sum of a single category's amounts across all rows (with the code's
`parseFloat(x || 0)` reading of each amount). -/
def categoryTotal (n : String) : List StoredCategory → ℚ
  | [] => 0
  | c :: l => (if c.category = n then jsOr c.total_spent 0 else 0) + categoryTotal n l

/-- Sum of the rows' `total_spent` values (with the code's
`parseFloat(x || 0)` reading). -/
def summariesTotal (ss : List StoredSummary) : ℚ :=
  (ss.map (fun s => jsOr s.total_spent 0)).sum

/-- Per-name accumulated amount inside a `categoryMap` state. -/
def amt (n : String) : List AggCategory → ℚ
  | [] => 0
  | e :: m => (if e.category = n then e.total_spent else 0) + amt n m

/-- Category names of a `categoryMap` state, in insertion order. -/
def aggNames (m : List AggCategory) : List String := m.map (fun e => e.category)

/-- Concrete dashboard entries with a positive percentage, used to
exercise the multiplier theorem. -/
def demoDialEntries : List DialEntry :=
  [⟨"E-Commerce", some 35⟩, ⟨"Fuel", some 20⟩, ⟨"Travel", none⟩]

/-- Concrete dashboard entries whose percentages are all zero or
non-numeric, used to exercise the all-ones branch of the multiplier
theorem. -/
def demoZeroDialEntries : List DialEntry :=
  [⟨"E-Commerce", some 0⟩, ⟨"Travel", none⟩]

/-- Concrete stored rows used to exercise the aggregation theorem on a
non-empty input. -/
def demoStoredSummaries : List StoredSummary :=
  [⟨some 100, some [⟨"Dining", some 60, some 2⟩, ⟨"Fuel", some 40, none⟩]⟩,
   ⟨some 50, some [⟨"Dining", some 50, some 2⟩]⟩]

/-! ### Merchant-name normalizer

Modelled from the spec: the Python source of `preprocess_merchant_series`
is absent from the repository snapshot (only the ML README describes it).
Per §4.1 the normalizer lowercases all characters, maps separator
characters (hyphens, underscores) to spaces, collapses runs of
single-character tokens ("spaced-letter" abbreviations such as `H E B` /
`H-E-B`) into one contiguous token, trims, and joins the remaining
tokens with single spaces. -/

/-- Modelled from the spec: separator characters (`-`, `_`) become
spaces; every other character is kept. -/
def sepToSpace (c : Char) : Char := if c = '-' ∨ c = '_' then ' ' else c

/-- Modelled from the spec: per-character normalization — lowercase the
character, then map separators to spaces. -/
def normChar (c : Char) : Char := sepToSpace c.toLower

/-- Modelled from the spec: whitespace tokenization with an accumulator
for the word currently being read (in reverse); empty tokens produced by
repeated spaces are dropped, which also trims leading and trailing
whitespace. -/
def wordsAux : List Char → List Char → List (List Char)
  | acc, [] => if acc.isEmpty then [] else [acc.reverse]
  | acc, c :: cs =>
    if c = ' ' then
      if acc.isEmpty then wordsAux [] cs else acc.reverse :: wordsAux [] cs
    else wordsAux (c :: acc) cs

/-- Modelled from the spec: split a character list into its
whitespace-delimited tokens. -/
def words (l : List Char) : List (List Char) := wordsAux [] l

/-- Modelled from the spec: collapse each maximal run of consecutive
single-character tokens into one contiguous token, carrying the pending
run in the accumulator. -/
def collapseAux : List Char → List (List Char) → List (List Char)
  | run, [] => if run.isEmpty then [] else [run]
  | run, t :: ts =>
    if t.length = 1 then collapseAux (run ++ t) ts
    else if run.isEmpty then t :: collapseAux [] ts
    else run :: t :: collapseAux [] ts

/-- Modelled from the spec: collapse spaced-letter abbreviation runs in a
token list. -/
def collapse (ts : List (List Char)) : List (List Char) := collapseAux [] ts

/-- Modelled from the spec: join tokens with single spaces. -/
def joinSp : List (List Char) → List Char
  | [] => []
  | [t] => t
  | t :: ts => t ++ ' ' :: joinSp ts

/-- Modelled from the spec: `normalize` — lowercase, separators to
spaces, tokenize, collapse spaced-letter runs, and rejoin with single
spaces (which trims and collapses whitespace runs).  The spec names this
operation `normalize`; that name is taken by Mathlib. -/
def normalizeMerchant (s : String) : String :=
  ⟨joinSp (collapse (words (s.data.map normChar)))⟩

/-- Well-formedness of a normalized token: non-empty, space-free, and
consisting of `normChar`-fixed characters. -/
def TokOk (t : List Char) : Prop :=
  t ≠ [] ∧ ∀ c ∈ t, c ≠ ' ' ∧ normChar c = c

/-- Adjacent-token predicate used to state that `collapse` leaves no two
neighbouring single-character tokens. -/
def NoTwoSingles (a b : List Char) : Prop := ¬ (a.length = 1 ∧ b.length = 1)

/-! ### Classifier and categorization engine

Modelled from the spec: the Python sources (`train.py`, the FastAPI
inference engine) are absent from the repository snapshot; the ML README
(`backend/ml model/README.md`) and spec §4.3–§4.5, §6–§7 describe them.
Raw classifier scores are passed through a strictly positive monotone
link and normalized into a distribution (the spec pins only
non-negativity and normalization of `predict_proba`, not the exact
softmax/calibration arithmetic of the absent source). -/

/-- Labeled training example (§3): a merchant string with its category. -/
structure TrainingExample where
  merchant : String
  label : String
deriving DecidableEq

/-- Modelled from the spec: strictly positive monotone link applied to a
raw decision-function score before normalization. -/
def posTransform (r : ℚ) : ℚ := if 0 ≤ r then 1 + r else 1 / (1 - r)

/-- Modelled from the spec §4.4: `predict_proba` — transform the raw
scores and normalize them into a distribution over the fixed category
set. -/
def predict_proba (scores : List ℚ) : List ℚ :=
  (scores.map posTransform).map (fun x => x / (scores.map posTransform).sum)

/-- Modelled from the spec §4.3: majority label of a label list with the
first-encountered tie-break (later labels replace the best only on a
strictly greater count). -/
def majorityLabel (labels : List String) : String :=
  labels.foldl
    (fun best l => if labels.count l > labels.count best then l else best)
    (labels.headD "")

/-- Modelled from the spec §4.3: the labels attached to a normalized
merchant in training order. -/
def labelsFor (ex : List TrainingExample) (m : String) : List String :=
  (ex.filter (fun e => normalizeMerchant e.merchant = m)).map (fun e => e.label)

/-- Modelled from the spec §4.3: the majority training category of a
normalized merchant. -/
def majorityFor (ex : List TrainingExample) (m : String) : String :=
  majorityLabel (labelsFor ex m)

/-- Modelled from the spec §4.3: the canonical merchant index keys — the
distinct normalized merchants of the training set
(`models/merchant_names.json` in the README). -/
def indexKeys (ex : List TrainingExample) : List String :=
  (ex.map (fun e => normalizeMerchant e.merchant)).dedup

/-- Source tag of a classification result (§3). -/
inductive ResultSource where
  | classifier
  | canonicalMatch
deriving DecidableEq

/-- ClassificationResult (§3): category, confidence in `[0,1]`, source. -/
structure ClassificationResult where
  category : String
  confidence : ℚ
  source : ResultSource
deriving DecidableEq

/-- Modelled from the spec §4.5/§9: the acceptance threshold for
canonical matches is an implementation choice that must be fixed and
documented; it is fixed here at `0.85`. -/
def acceptThreshold : ℚ := 85 / 100

/-- Modelled from the spec §4.3: canonical index lookup — an exact match
returns match quality `1.0`; the near-match similarity metric is left
open by the spec (§9) and is modelled as exact-only, which is the only
branch the claims exercise. -/
def indexLookup (ex : List TrainingExample) (m : String) : Option (String × ℚ) :=
  if m ∈ indexKeys ex then some (majorityFor ex m, 1) else none

/-- Trained artifact (§6): canonical-index source data, the fixed
category set, and the classifier's raw scoring function. -/
structure Artifact where
  examples : List TrainingExample
  categories : List String
  rawScore : String → List ℚ

/-- Modelled from the spec §4.4/§4.5: the classifier branch of inference —
calibrated probabilities paired with the categories, and the argmax
taken as the result, tagged source = classifier. -/
def classifierResult (a : Artifact) (m : String) : ClassificationResult :=
  let probs := predict_proba (a.rawScore m)
  let pairs := a.categories.zip probs
  let best := pairs.foldl (fun b p => if b.2 < p.2 then p else b) ("", 0)
  ⟨best.1, best.2, ResultSource.classifier⟩

/-- Modelled from the spec §4.5: `categorize` — normalize the input,
consult the canonical index, return the canonical match when its quality
reaches the acceptance threshold, else fall back to the classifier. -/
def categorize (a : Artifact) (raw : String) : ClassificationResult :=
  match indexLookup a.examples (normalizeMerchant raw) with
  | some (cat, q) =>
      if acceptThreshold ≤ q then ⟨cat, q, ResultSource.canonicalMatch⟩
      else classifierResult a (normalizeMerchant raw)
  | none => classifierResult a (normalizeMerchant raw)

/-- Training failure taxonomy (§7). -/
inductive TrainError where
  | configurationError
deriving DecidableEq

/-- Modelled from the spec: the learned raw score of each category on a
normalized merchant — here the count of training examples carrying that
label whose normalized merchant matches (the real logistic-regression
weights live in the absent Python source; the claims constrain only the
normalized distribution built on top). -/
def trainedScore (ex : List TrainingExample) (cats : List String)
    (m : String) : List ℚ :=
  cats.map (fun c =>
    ((ex.filter (fun e => e.label = c ∧ normalizeMerchant e.merchant = m)).length : ℚ))

/-- Modelled from the spec §4.4/§7: `train` — reports a
ConfigurationError when the dataset is empty or contains fewer than two
distinct categories; otherwise bundles the immutable artifact. -/
def train (ex : List TrainingExample) : Except TrainError Artifact :=
  if ex.isEmpty ∨ ((ex.map (fun e => e.label)).dedup).length < 2 then
    Except.error TrainError.configurationError
  else
    Except.ok ⟨ex, (ex.map (fun e => e.label)).dedup,
      trainedScore ex ((ex.map (fun e => e.label)).dedup)⟩

/-- Inference failure taxonomy (§7). -/
inductive InferenceError where
  | modelUnavailable
deriving DecidableEq

/-- Modelled from the spec §5: engine lifecycle state — either no
artifact has been loaded, or one immutable artifact is loaded. -/
inductive EngineState where
  | unloaded
  | loaded (a : Artifact)

/-- Modelled from the spec §7: every `categorize` call first checks
artifact availability; with no loaded artifact it reports
ModelUnavailable and never produces a category. -/
def engineCategorize :
    EngineState → String → Except InferenceError ClassificationResult
  | EngineState.unloaded, _ => Except.error InferenceError.modelUnavailable
  | EngineState.loaded a, s => Except.ok (categorize a s)

/-- Concrete training set from the spec's end-to-end scenario (§8). -/
def demoTrainingSet : List TrainingExample :=
  [⟨"Starbucks", "Dining"⟩, ⟨"Walmart", "Retail"⟩, ⟨"Shell Gas", "Fuel"⟩]

/-- The artifact produced by a successful `train` on the demo set. -/
def demoArtifact : Artifact :=
  ⟨demoTrainingSet, (demoTrainingSet.map (fun e => e.label)).dedup,
    trainedScore demoTrainingSet ((demoTrainingSet.map (fun e => e.label)).dedup)⟩

/-- Concrete single-category training set from the spec's training
failure scenario (§8). -/
def demoSingleCategorySet : List TrainingExample :=
  [⟨"Starbucks", "Dining"⟩, ⟨"McDonalds", "Dining"⟩]

theorem foldl_add_jsOr : ∀ (l : List StoredSummary) (a : ℚ),
    l.foldl (fun acc s => acc + jsOr s.total_spent 0) a = a + summariesTotal l
  | [], a => by simp [summariesTotal]
  | s :: l, a => by
    simp only [List.foldl_cons]
    rw [foldl_add_jsOr l]
    simp only [summariesTotal, List.map_cons, List.sum_cons]
    ring

theorem aggNames_addCat (m : List AggCategory) (c : StoredCategory) :
    aggNames (addCat m c) =
      if c.category ∈ aggNames m then aggNames m else aggNames m ++ [c.category] := by
  unfold addCat aggNames
  by_cases h : c.category ∈ m.map (fun e => e.category)
  · have hany : m.any (fun e => e.category = c.category) = true := by
      rw [List.any_eq_true]
      obtain ⟨e, he, heq⟩ := List.mem_map.mp h
      exact ⟨e, he, by simp [heq]⟩
    rw [if_pos hany, if_pos h, List.map_map]
    apply List.map_congr_left
    intro e _
    by_cases hc : e.category = c.category <;> simp [hc]
  · have hany : ¬ m.any (fun e => e.category = c.category) = true := by
      simp only [List.any_eq_true, not_exists]
      rintro e ⟨he, heq⟩
      exact h (List.mem_map.mpr ⟨e, he, by simpa using heq⟩)
    rw [if_neg hany, if_neg h, List.map_append]
    simp

theorem nodup_aggNames_addCat (m : List AggCategory) (c : StoredCategory)
    (h : (aggNames m).Nodup) : (aggNames (addCat m c)).Nodup := by
  rw [aggNames_addCat]
  by_cases hm : c.category ∈ aggNames m
  · rwa [if_pos hm]
  · rw [if_neg hm]
    simp [List.nodup_append, h, hm]

theorem mem_aggNames_addCat (m : List AggCategory) (c : StoredCategory) (n : String) :
    n ∈ aggNames (addCat m c) ↔ n ∈ aggNames m ∨ n = c.category := by
  rw [aggNames_addCat]
  by_cases hm : c.category ∈ aggNames m
  · rw [if_pos hm]
    constructor
    · exact Or.inl
    · rintro (h | rfl)
      · exact h
      · exact hm
  · rw [if_neg hm]
    simp

theorem amt_append (n : String) (l₁ l₂ : List AggCategory) :
    amt n (l₁ ++ l₂) = amt n l₁ + amt n l₂ := by
  induction l₁ with
  | nil => simp [amt]
  | cons e l ih =>
    simp only [List.cons_append, amt, List.append_eq] at ih ⊢
    rw [ih]
    ring

theorem amt_eq_zero_of_not_mem (n : String) : ∀ (m : List AggCategory),
    n ∉ aggNames m → amt n m = 0
  | [], _ => rfl
  | e :: m, h => by
    simp only [aggNames, List.map_cons, List.mem_cons, not_or] at h
    simp only [amt]
    rw [if_neg (fun he => h.1 he.symm), amt_eq_zero_of_not_mem n m (by
      intro hm; exact h.2 (by simpa [aggNames] using hm))]
    ring

theorem amt_map_update (n : String) (c : StoredCategory) :
    ∀ (m : List AggCategory), (aggNames m).Nodup →
    amt n (m.map (fun e =>
        if e.category = c.category
        then { e with total_spent := e.total_spent + jsOr c.total_spent 0 }
        else e)) =
      amt n m + (if c.category = n ∧ c.category ∈ aggNames m then jsOr c.total_spent 0 else 0)
  | [], _ => by simp [amt, aggNames]
  | e :: m, h => by
    have hn : (aggNames m).Nodup := by
      simp only [aggNames, List.map_cons, List.nodup_cons] at h
      exact h.2
    have hnotin : e.category ∉ aggNames m := by
      simp only [aggNames, List.map_cons, List.nodup_cons] at h
      exact h.1
    simp only [List.map_cons, amt]
    rw [amt_map_update n c m hn]
    by_cases he : e.category = c.category
    · have hcm : c.category ∉ aggNames m := he ▸ hnotin
      have hmem : c.category ∈ aggNames (e :: m) := by
        simp [aggNames, he]
      by_cases hcn : c.category = n
      · subst hcn
        simp only [he, if_pos rfl, aggNames] at hcm hmem ⊢
        simp [hcm, hmem]
        rw [if_pos he.symm]
        ring
      · simp [he, hcn]
    · have hmemiff : (c.category ∈ aggNames (e :: m)) ↔ (c.category ∈ aggNames m) := by
        simp only [aggNames, List.map_cons, List.mem_cons]
        constructor
        · rintro (hh | hh)
          · exact absurd hh.symm he
          · exact hh
        · exact Or.inr
      simp [he, hmemiff]
      ring

theorem amt_addCat (n : String) (m : List AggCategory) (c : StoredCategory)
    (h : (aggNames m).Nodup) :
    amt n (addCat m c) =
      amt n m + (if c.category = n then jsOr c.total_spent 0 else 0) := by
  unfold addCat
  by_cases hmem : c.category ∈ aggNames m
  · have hany : m.any (fun e => e.category = c.category) = true := by
      rw [List.any_eq_true]
      obtain ⟨e, he, heq⟩ := List.mem_map.mp hmem
      exact ⟨e, he, by simp [heq]⟩
    rw [if_pos hany, amt_map_update n c m h]
    by_cases hcn : c.category = n
    · simp [hcn, hcn ▸ hmem]
    · simp [hcn]
  · have hany : ¬ m.any (fun e => e.category = c.category) = true := by
      simp only [List.any_eq_true, not_exists]
      rintro e ⟨he, heq⟩
      exact hmem (List.mem_map.mpr ⟨e, he, by simpa using heq⟩)
    rw [if_neg hany, amt_append]
    simp [amt]

theorem nodup_foldl_addCat : ∀ (l : List StoredCategory) (m : List AggCategory),
    (aggNames m).Nodup → (aggNames (l.foldl addCat m)).Nodup
  | [], _, h => h
  | c :: l, m, h => by
    simp only [List.foldl_cons]
    exact nodup_foldl_addCat l (addCat m c) (nodup_aggNames_addCat m c h)

theorem amt_foldl_addCat (n : String) : ∀ (l : List StoredCategory) (m : List AggCategory),
    (aggNames m).Nodup →
    amt n (l.foldl addCat m) = amt n m + categoryTotal n l
  | [], m, _ => by simp [categoryTotal]
  | c :: l, m, h => by
    simp only [List.foldl_cons, categoryTotal]
    rw [amt_foldl_addCat n l (addCat m c) (nodup_aggNames_addCat m c h),
      amt_addCat n m c h]
    ring

theorem mem_foldl_addCat (n : String) : ∀ (l : List StoredCategory) (m : List AggCategory),
    n ∈ aggNames (l.foldl addCat m) ↔
      n ∈ aggNames m ∨ n ∈ l.map (fun c => c.category)
  | [], m => by simp
  | c :: l, m => by
    simp only [List.foldl_cons, List.map_cons, List.mem_cons]
    rw [mem_foldl_addCat n l (addCat m c), mem_aggNames_addCat]
    tauto

theorem countP_category_of_nodup (n : String) : ∀ (m : List AggCategory),
    (aggNames m).Nodup →
    m.countP (fun e => e.category = n) = if n ∈ aggNames m then 1 else 0
  | [], _ => by simp [aggNames]
  | e :: m, h => by
    have hn : (aggNames m).Nodup := by
      simp only [aggNames, List.map_cons, List.nodup_cons] at h
      exact h.2
    have hnotin : e.category ∉ aggNames m := by
      simp only [aggNames, List.map_cons, List.nodup_cons] at h
      exact h.1
    rw [List.countP_cons, countP_category_of_nodup n m hn]
    by_cases he : e.category = n
    · have hnm : n ∉ aggNames m := he ▸ hnotin
      have hmem : n ∈ aggNames (e :: m) := by simp [aggNames, he]
      simp [hnm, hmem, he]
    · have : (n ∈ aggNames (e :: m)) ↔ (n ∈ aggNames m) := by
        simp only [aggNames, List.map_cons, List.mem_cons]
        constructor
        · rintro (hh | hh)
          · exact absurd hh.symm he
          · exact hh
        · exact Or.inr
      simp [this, he]

theorem total_of_mem_of_nodup : ∀ (m : List AggCategory) (e : AggCategory),
    (aggNames m).Nodup → e ∈ m → e.total_spent = amt e.category m
  | [], e, _, he => absurd he (List.not_mem_nil e)
  | f :: m, e, h, he => by
    have hn : (aggNames m).Nodup := by
      simp only [aggNames, List.map_cons, List.nodup_cons] at h
      exact h.2
    have hnotin : f.category ∉ aggNames m := by
      simp only [aggNames, List.map_cons, List.nodup_cons] at h
      exact h.1
    rcases List.mem_cons.mp he with rfl | hm
    · simp [amt, amt_eq_zero_of_not_mem e.category m hnotin]
    · have hecat : e.category ∈ aggNames m :=
        List.mem_map.mpr ⟨e, hm, rfl⟩
      have hne : ¬ f.category = e.category := fun hh => hnotin (hh ▸ hecat)
      simp only [amt, if_neg hne]
      rw [← total_of_mem_of_nodup m e hn hm]
      ring

theorem buildMap_eq : ∀ (ss : List StoredSummary) (m : List AggCategory),
    ss.foldl (fun m s => (summaryCats s).foldl addCat m) m
      = (allStoredCats ss).foldl addCat m
  | [], m => rfl
  | s :: ss, m => by
    simp only [List.foldl_cons, allStoredCats, List.foldl_append]
    exact buildMap_eq ss _

theorem getAggregatedSummary_eq (ss : List StoredSummary) (hne : ss ≠ []) :
    getAggregatedSummary ss =
      ⟨summariesTotal ss,
       (((allStoredCats ss).foldl addCat []).map (fun c =>
          OutCategory.mk c.category c.total_spent c.points_multiplier
            (if 0 < summariesTotal ss
             then c.total_spent / summariesTotal ss * 100 else 0))).mergeSort
          (fun a b => decide (b.total_spent ≤ a.total_spent))⟩ := by
  unfold getAggregatedSummary
  have hni : ¬ ss.isEmpty = true := by
    simp only [List.isEmpty_iff]
    exact hne
  rw [if_neg hni]
  rw [buildMap_eq, foldl_add_jsOr]
  simp

theorem sorted_desc_of_pairwise {l : List OutCategory}
    (h : l.Pairwise (fun a b => (fun a b : OutCategory =>
      decide (b.total_spent ≤ a.total_spent)) a b = true)) :
    List.Sorted (fun a b : OutCategory => b.total_spent ≤ a.total_spent) l :=
  h.imp (fun hab => of_decide_eq_true hab)

/-- C1.  For every user whose stored summaries form a non-empty list,
`getAggregatedSummary` returns a summary whose `total_spent` is the sum of
the stored rows' `total_spent` values; whose `categories` list has exactly
one entry per distinct category name appearing in any stored row (and no
others); where each entry's `total_spent` is the sum of that category's
amounts across all rows and its `percentage_of_spend` is
`total/overall*100` when the overall total is positive and `0` when it is
not; and whose entries are sorted in descending order of `total_spent`. -/
theorem getAggregatedSummary_correct (ss : List StoredSummary) (hne : ss ≠ []) :
    (getAggregatedSummary ss).total_spent = summariesTotal ss
  ∧ (∀ n : String, ((getAggregatedSummary ss).categories.countP
        (fun e => e.category = n)) = if n ∈ catNames ss then 1 else 0)
  ∧ (∀ e ∈ (getAggregatedSummary ss).categories,
        e.total_spent = categoryTotal e.category (allStoredCats ss)
      ∧ e.percentage_of_spend =
          (if 0 < summariesTotal ss
           then e.total_spent / summariesTotal ss * 100 else 0))
  ∧ List.Sorted (fun a b : OutCategory => b.total_spent ≤ a.total_spent)
      (getAggregatedSummary ss).categories := by
  rw [getAggregatedSummary_eq ss hne]
  have hnodup : (aggNames ((allStoredCats ss).foldl addCat [])).Nodup :=
    nodup_foldl_addCat (allStoredCats ss) [] (by simp [aggNames])
  have hperm :
      ((((allStoredCats ss).foldl addCat []).map (fun c =>
          OutCategory.mk c.category c.total_spent c.points_multiplier
            (if 0 < summariesTotal ss
             then c.total_spent / summariesTotal ss * 100 else 0))).mergeSort
          (fun a b => decide (b.total_spent ≤ a.total_spent))).Perm
        (((allStoredCats ss).foldl addCat []).map (fun c =>
          OutCategory.mk c.category c.total_spent c.points_multiplier
            (if 0 < summariesTotal ss
             then c.total_spent / summariesTotal ss * 100 else 0))) :=
    List.mergeSort_perm _ _
  refine ⟨rfl, ?_, ?_, ?_⟩
  · intro n
    show (((((allStoredCats ss).foldl addCat []).map _).mergeSort _).countP _) = _
    rw [hperm.countP_eq, List.countP_map]
    simp only [Function.comp_def]
    rw [countP_category_of_nodup n _ hnodup]
    have hmem : (n ∈ aggNames ((allStoredCats ss).foldl addCat []))
        ↔ n ∈ catNames ss := by
      rw [mem_foldl_addCat n (allStoredCats ss) []]
      simp [aggNames, catNames]
    by_cases hn : n ∈ catNames ss
    · rw [if_pos (hmem.mpr hn), if_pos hn]
    · rw [if_neg (fun hh => hn (hmem.mp hh)), if_neg hn]
  · intro e he
    have hein : e ∈ (((allStoredCats ss).foldl addCat []).map (fun c =>
        OutCategory.mk c.category c.total_spent c.points_multiplier
          (if 0 < summariesTotal ss
           then c.total_spent / summariesTotal ss * 100 else 0))) :=
      hperm.mem_iff.mp he
    obtain ⟨c, hc, rfl⟩ := List.mem_map.mp hein
    have htot : c.total_spent = categoryTotal c.category (allStoredCats ss) := by
      rw [total_of_mem_of_nodup _ c hnodup hc,
        amt_foldl_addCat c.category (allStoredCats ss) [] (by simp [aggNames])]
      simp [amt]
    exact ⟨htot, rfl⟩
  · apply sorted_desc_of_pairwise
    apply List.sorted_mergeSort
    · intro a b c hab hbc
      simp only [decide_eq_true_eq] at hab hbc ⊢
      exact le_trans hbc hab
    · intro a b
      simp only [Bool.or_eq_true, decide_eq_true_eq]
      exact le_total b.total_spent a.total_spent

/-- Witness for C1: the aggregation theorem applied at a concrete
non-empty list of stored rows. -/
theorem getAggregatedSummary_correct_witness :
    (getAggregatedSummary demoStoredSummaries).total_spent
        = summariesTotal demoStoredSummaries
  ∧ (∀ n : String, ((getAggregatedSummary demoStoredSummaries).categories.countP
        (fun e => e.category = n))
        = if n ∈ catNames demoStoredSummaries then 1 else 0)
  ∧ (∀ e ∈ (getAggregatedSummary demoStoredSummaries).categories,
        e.total_spent = categoryTotal e.category (allStoredCats demoStoredSummaries)
      ∧ e.percentage_of_spend =
          (if 0 < summariesTotal demoStoredSummaries
           then e.total_spent / summariesTotal demoStoredSummaries * 100 else 0))
  ∧ List.Sorted (fun a b : OutCategory => b.total_spent ≤ a.total_spent)
      (getAggregatedSummary demoStoredSummaries).categories :=
  getAggregatedSummary_correct demoStoredSummaries (by decide)

/-- C9.  For every finite numeric `percentage` prop passed to
`CategoryDial`, the rendering value is clamped to `[0, 100]` (it equals
`max(0, min(100, percentage))`), and the filled arc is drawn exactly when
the clamped value is strictly positive. -/
theorem categoryDial_clamps_percentage (p : ℚ) :
    0 ≤ clampedPercentage p
  ∧ clampedPercentage p ≤ 100
  ∧ clampedPercentage p = max 0 (min 100 p)
  ∧ (filledArcDrawn p = true ↔ 0 < clampedPercentage p) := by
  refine ⟨le_max_left 0 _, max_le (by norm_num) (min_le_left _ _), rfl, ?_⟩
  unfold filledArcDrawn filledPath
  by_cases h : 0 < clampedPercentage p
  · simp [h]
  · simp [h]

theorem le_foldl_max (l : List ℚ) (a : ℚ) : a ≤ l.foldl max a := by
  induction l generalizing a with
  | nil => exact le_refl a
  | cons x l ih => exact le_trans (le_max_left a x) (ih (max a x))

theorem mem_le_foldl_max (l : List ℚ) (x : ℚ) (hx : x ∈ l) :
    ∀ a : ℚ, x ≤ l.foldl max a := by
  induction l with
  | nil => cases hx
  | cons y l ih =>
    intro a
    rcases List.mem_cons.mp hx with rfl | h
    · exact le_trans (le_max_right a x) (le_foldl_max l (max a x))
    · exact ih h (max a y)

theorem foldl_max_zero_of_nonpos (l : List ℚ) (h : ∀ x ∈ l, x ≤ 0) :
    l.foldl max 0 = 0 := by
  induction l with
  | nil => rfl
  | cons x l ih =>
    have hx : x ≤ 0 := h x (List.mem_cons_self x l)
    simp only [List.foldl_cons, max_eq_left hx]
    exact ih (fun y hy => h y (List.mem_cons_of_mem x hy))

theorem jsRound_le_fifty (q : ℚ) (h : q ≤ 50) : jsRound q ≤ 50 := by
  unfold jsRound
  have : ((50 : ℤ) : ℚ) ≤ 51 - (q + 1/2) + ⌊q + 1/2⌋ := by
    have hfl : (q + 1/2) - 1 < (⌊q + 1/2⌋ : ℚ) := by
      have := Int.sub_one_lt_floor (q + 1/2)
      linarith
    push_cast
    linarith
  have hle : q + 1/2 ≤ 50 + 1/2 := by linarith
  calc jsRound q = ⌊q + 1/2⌋ := rfl
    _ ≤ ⌊(50 : ℚ) + 1/2⌋ := Int.floor_le_floor hle
    _ = 50 := by
        rw [Int.floor_eq_iff]
        norm_num

theorem jsRound_fifty : jsRound 50 = 50 := by
  unfold jsRound
  rw [Int.floor_eq_iff]
  norm_num

/-- C10.  For every list of category entries, `computeMultipliers` returns
entries whose `points_multiplier` lies in `[1, 5]`; when every entry's
`percentage_of_spend` is `0` or non-numeric every returned multiplier is
exactly `1`; and when some entry has a positive percentage, every entry
carrying the maximal percentage receives multiplier exactly `5`. -/
theorem computeMultipliers_bounds (cats : List DialEntry) :
    (∀ e ∈ computeMultipliers cats,
        1 ≤ e.points_multiplier ∧ e.points_multiplier ≤ 5)
  ∧ ((∀ e ∈ cats, jsNum e.percentage_of_spend = 0) →
        ∀ e ∈ computeMultipliers cats, e.points_multiplier = 1)
  ∧ ((∃ e ∈ cats, 0 < jsNum e.percentage_of_spend) →
        ∀ e ∈ computeMultipliers cats,
          e.percentage_of_spend = maxPercentageOf cats →
          e.points_multiplier = 5) := by
  unfold computeMultipliers
  by_cases hemp : cats.isEmpty = true
  · simp [hemp]
  · rw [if_neg hemp]
    simp only []
    have hMdef : ((cats.map
        (fun e => (e.category, jsNum e.percentage_of_spend))).map
          (fun e => e.2)).foldl max 0 = maxPercentageOf cats := by
      rw [List.map_map]
      rfl
    rw [hMdef]
    have hMnonneg : 0 ≤ maxPercentageOf cats := le_foldl_max _ 0
    by_cases hz : maxPercentageOf cats = 0
    · rw [if_pos hz]
      refine ⟨?_, ?_, ?_⟩
      · intro e he
        obtain ⟨pair, _, rfl⟩ := List.mem_map.mp he
        exact ⟨le_refl 1, by norm_num⟩
      · intro _ e he
        obtain ⟨pair, _, rfl⟩ := List.mem_map.mp he
        rfl
      · rintro ⟨c, hc, hpos⟩
        have hmem : jsNum c.percentage_of_spend ∈
            cats.map (fun e => jsNum e.percentage_of_spend) :=
          List.mem_map.mpr ⟨c, hc, rfl⟩
        have hle : jsNum c.percentage_of_spend ≤ maxPercentageOf cats :=
          mem_le_foldl_max _ _ hmem 0
        rw [hz] at hle
        exact absurd hpos (not_lt.mpr hle)
    · rw [if_neg hz]
      have hMpos : 0 < maxPercentageOf cats :=
        lt_of_le_of_ne hMnonneg (Ne.symm hz)
      have hmult : ∀ c ∈ cats,
          1 ≤ max 1 ((jsRound (5 * (jsNum c.percentage_of_spend /
              maxPercentageOf cats) * 10) : ℚ) / 10)
        ∧ max 1 ((jsRound (5 * (jsNum c.percentage_of_spend /
              maxPercentageOf cats) * 10) : ℚ) / 10) ≤ 5 := by
        intro c hc
        refine ⟨le_max_left 1 _, max_le (by norm_num) ?_⟩
        have hp : jsNum c.percentage_of_spend ≤ maxPercentageOf cats :=
          mem_le_foldl_max _ _ (List.mem_map.mpr ⟨c, hc, rfl⟩) 0
        have hratio : jsNum c.percentage_of_spend / maxPercentageOf cats ≤ 1 :=
          (div_le_one hMpos).mpr hp
        have hq : 5 * (jsNum c.percentage_of_spend / maxPercentageOf cats)
            * 10 ≤ 50 := by linarith
        have hcast : ((jsRound (5 * (jsNum c.percentage_of_spend /
            maxPercentageOf cats) * 10) : ℤ) : ℚ) ≤ 50 := by
          exact_mod_cast jsRound_le_fifty _ hq
        linarith
      refine ⟨?_, ?_, ?_⟩
      · intro e he
        obtain ⟨pair, hpair, rfl⟩ := List.mem_map.mp he
        obtain ⟨c, hc, rfl⟩ := List.mem_map.mp hpair
        exact hmult c hc
      · intro hall
        have : maxPercentageOf cats = 0 :=
          foldl_max_zero_of_nonpos _ (by
            intro x hx
            obtain ⟨c, hc, rfl⟩ := List.mem_map.mp hx
            exact le_of_eq (hall c hc))
        exact absurd this hz
      · rintro ⟨c0, hc0, hpos⟩ e he hpe
        obtain ⟨pair, hpair, rfl⟩ := List.mem_map.mp he
        obtain ⟨c, hc, rfl⟩ := List.mem_map.mp hpair
        have hp : jsNum c.percentage_of_spend = maxPercentageOf cats := hpe
        show max 1 ((jsRound (5 * (jsNum c.percentage_of_spend /
            maxPercentageOf cats) * 10) : ℚ) / 10) = 5
        rw [hp, div_self (ne_of_gt hMpos)]
        have h50 : (5 : ℚ) * 1 * 10 = 50 := by norm_num
        rw [h50, jsRound_fifty]
        norm_num

/-- Witness for C10: the multiplier theorem applied at concrete entry
lists, discharging the all-zero hypothesis and the some-positive
hypothesis at explicit inputs. -/
theorem computeMultipliers_bounds_witness :
    (∀ e ∈ computeMultipliers demoZeroDialEntries, e.points_multiplier = 1)
  ∧ (∀ e ∈ computeMultipliers demoDialEntries,
        e.percentage_of_spend = maxPercentageOf demoDialEntries →
        e.points_multiplier = 5)
  ∧ (∀ e ∈ computeMultipliers demoDialEntries,
        1 ≤ e.points_multiplier ∧ e.points_multiplier ≤ 5) :=
  ⟨(computeMultipliers_bounds demoZeroDialEntries).2.1 (by decide),
   (computeMultipliers_bounds demoDialEntries).2.2 (by decide),
   (computeMultipliers_bounds demoDialEntries).1⟩

theorem char_toNat_ofNat_valid (n : ℕ) (h : n.isValidChar) :
    (Char.ofNat n).toNat = n := by
  unfold Char.ofNat
  simp [h]
  unfold Char.ofNatAux Char.toNat
  simp [UInt32.toNat, BitVec.toNat_ofNatLt]

theorem char_toLower_idem (c : Char) :
    Char.toLower (Char.toLower c) = Char.toLower c := by
  unfold Char.toLower
  by_cases h : c.toNat ≥ 65 ∧ c.toNat ≤ 90
  · rw [if_pos h]
    have hv : (c.toNat + 32).isValidChar := Or.inl (by omega)
    have ht : (Char.ofNat (c.toNat + 32)).toNat = c.toNat + 32 :=
      char_toNat_ofNat_valid _ hv
    rw [ht]
    have : ¬(c.toNat + 32 ≥ 65 ∧ c.toNat + 32 ≤ 90) := by omega
    rw [if_neg this]
  · rw [if_neg h, if_neg h]

theorem normChar_space : normChar ' ' = ' ' := by decide

theorem normChar_idem (c : Char) : normChar (normChar c) = normChar c := by
  unfold normChar sepToSpace
  by_cases h : c.toLower = '-' ∨ c.toLower = '_'
  · rw [if_pos h]
    have hsp : (' ' : Char).toLower = ' ' := by decide
    rw [hsp]
    norm_num
  · rw [if_neg h, char_toLower_idem, if_neg h]

theorem wordsAux_append_word (w : List Char) (hw : ∀ c ∈ w, ¬ c = ' ') :
    ∀ (cs acc : List Char),
    wordsAux acc (w ++ cs) = wordsAux (w.reverse ++ acc) cs := by
  induction w with
  | nil => intro cs acc; simp
  | cons c w ih =>
    intro cs acc
    have hc : ¬ c = ' ' := hw c (List.mem_cons_self c w)
    have hw' : ∀ d ∈ w, ¬ d = ' ' := fun d hd => hw d (List.mem_cons_of_mem c hd)
    simp only [List.cons_append, wordsAux, if_neg hc, List.append_eq]
    rw [ih hw' cs (c :: acc)]
    simp [List.append_assoc]

theorem words_joinSp : ∀ (ts : List (List Char)),
    (∀ t ∈ ts, t ≠ [] ∧ ∀ c ∈ t, ¬ c = ' ') → words (joinSp ts) = ts
  | [], _ => rfl
  | [t], h => by
    obtain ⟨hne, hsp⟩ := h t (List.mem_singleton.mpr rfl)
    show wordsAux [] (joinSp [t]) = [t]
    have : joinSp [t] = t ++ [] := by simp [joinSp]
    rw [this, wordsAux_append_word t hsp [] []]
    unfold wordsAux
    rw [if_neg (by simp [hne])]
    simp
  | t :: u :: ts, h => by
    obtain ⟨hne, hsp⟩ := h t (List.mem_cons_self t (u :: ts))
    have hrest : ∀ v ∈ u :: ts, v ≠ [] ∧ ∀ c ∈ v, ¬ c = ' ' :=
      fun v hv => h v (List.mem_cons_of_mem t hv)
    show wordsAux [] (joinSp (t :: u :: ts)) = t :: u :: ts
    have hj : joinSp (t :: u :: ts) = t ++ ' ' :: joinSp (u :: ts) := rfl
    rw [hj, wordsAux_append_word t hsp _ []]
    unfold wordsAux
    rw [if_pos rfl, if_neg (by simp [hne])]
    have hIH := words_joinSp (u :: ts) hrest
    unfold words at hIH
    rw [hIH]
    simp

theorem wordsAux_wf (Q : Char → Prop) : ∀ (l acc : List Char),
    (∀ c ∈ acc, ¬ c = ' ' ∧ Q c) → (∀ c ∈ l, Q c) →
    ∀ t ∈ wordsAux acc l, t ≠ [] ∧ ∀ c ∈ t, ¬ c = ' ' ∧ Q c
  | [], acc, hacc, _ => by
    intro t ht
    unfold wordsAux at ht
    by_cases hE : acc.isEmpty
    · rw [if_pos hE] at ht
      cases ht
    · rw [if_neg hE] at ht
      rcases List.mem_singleton.mp ht with rfl
      refine ⟨by simpa [List.isEmpty_iff] using hE, ?_⟩
      intro c hc
      exact hacc c (List.mem_reverse.mp hc)
  | c :: cs, acc, hacc, hl => by
    intro t ht
    have hlc : ∀ d ∈ cs, Q d := fun d hd => hl d (List.mem_cons_of_mem c hd)
    unfold wordsAux at ht
    by_cases hc : c = ' '
    · rw [if_pos hc] at ht
      by_cases hE : acc.isEmpty
      · rw [if_pos hE] at ht
        exact wordsAux_wf Q cs [] (by simp) hlc t ht
      · rw [if_neg hE] at ht
        rcases List.mem_cons.mp ht with rfl | hmem
        · refine ⟨by simpa [List.isEmpty_iff] using hE, ?_⟩
          intro d hd
          exact hacc d (List.mem_reverse.mp hd)
        · exact wordsAux_wf Q cs [] (by simp) hlc t hmem
    · rw [if_neg hc] at ht
      refine wordsAux_wf Q cs (c :: acc) ?_ hlc t ht
      intro d hd
      rcases List.mem_cons.mp hd with rfl | hmem
      · exact ⟨hc, hl d (List.mem_cons_self d cs)⟩
      · exact hacc d hmem

theorem collapseAux_wf : ∀ (ts : List (List Char)) (run : List Char),
    (∀ c ∈ run, ¬ c = ' ' ∧ normChar c = c) → (∀ t ∈ ts, TokOk t) →
    ∀ t ∈ collapseAux run ts, TokOk t
  | [], run, hrun, _ => by
    intro t ht
    unfold collapseAux at ht
    by_cases hE : run.isEmpty
    · rw [if_pos hE] at ht
      cases ht
    · rw [if_neg hE] at ht
      rcases List.mem_singleton.mp ht with rfl
      exact ⟨by simpa [List.isEmpty_iff] using hE, hrun⟩
  | u :: ts, run, hrun, hts => by
    intro t ht
    have hu : TokOk u := hts u (List.mem_cons_self u ts)
    have hts' : ∀ v ∈ ts, TokOk v := fun v hv => hts v (List.mem_cons_of_mem u hv)
    unfold collapseAux at ht
    by_cases h1 : u.length = 1
    · rw [if_pos h1] at ht
      refine collapseAux_wf ts (run ++ u) ?_ hts' t ht
      intro c hc
      rcases List.mem_append.mp hc with hcr | hcu
      · exact hrun c hcr
      · exact hu.2 c hcu
    · rw [if_neg h1] at ht
      by_cases hE : run.isEmpty
      · rw [if_pos hE] at ht
        rcases List.mem_cons.mp ht with rfl | hmem
        · exact hu
        · exact collapseAux_wf ts [] (by simp) hts' t hmem
      · rw [if_neg hE] at ht
        rcases List.mem_cons.mp ht with rfl | hmem
        · exact ⟨by simpa [List.isEmpty_iff] using hE, hrun⟩
        · rcases List.mem_cons.mp hmem with rfl | hmem'
          · exact hu
          · exact collapseAux_wf ts [] (by simp) hts' t hmem'

theorem collapseAux_chain : ∀ (ts : List (List Char)) (run : List Char),
    List.Chain' NoTwoSingles (collapseAux run ts)
  | [], run => by
    unfold collapseAux
    by_cases hE : run.isEmpty
    · rw [if_pos hE]
      exact List.chain'_nil
    · rw [if_neg hE]
      exact List.chain'_singleton run
  | u :: ts, run => by
    unfold collapseAux
    by_cases h1 : u.length = 1
    · rw [if_pos h1]
      exact collapseAux_chain ts (run ++ u)
    · rw [if_neg h1]
      have htail : List.Chain' NoTwoSingles (u :: collapseAux [] ts) := by
        rw [List.chain'_cons']
        exact ⟨fun b _ => fun hcontra => h1 hcontra.1, collapseAux_chain ts []⟩
      by_cases hE : run.isEmpty
      · rw [if_pos hE]
        exact htail
      · rw [if_neg hE]
        rw [List.chain'_cons']
        refine ⟨?_, htail⟩
        intro b hb
        simp only [List.head?_cons, Option.mem_def, Option.some.injEq] at hb
        subst hb
        exact fun hcontra => h1 hcontra.2

theorem collapseAux_nil (run : List Char) :
    collapseAux run [] = if run.isEmpty then [] else [run] := rfl

theorem collapseAux_cons (run t : List Char) (ts : List (List Char)) :
    collapseAux run (t :: ts) =
      if t.length = 1 then collapseAux (run ++ t) ts
      else if run.isEmpty then t :: collapseAux [] ts
      else run :: t :: collapseAux [] ts := rfl

theorem collapseAux_emit (run : List Char) (ts : List (List Char))
    (hrun : run ≠ [])
    (hts : ts = [] ∨ ∃ u us, ts = u :: us ∧ ¬ u.length = 1) :
    collapseAux run ts = run :: collapseAux [] ts := by
  have hE : ¬ run.isEmpty = true := by simpa [List.isEmpty_iff] using hrun
  rcases hts with rfl | ⟨u, us, rfl, hu⟩
  · rw [collapseAux_nil, collapseAux_nil, if_neg hE]
    simp
  · rw [collapseAux_cons, collapseAux_cons, if_neg hu, if_neg hu, if_neg hE]
    simp

theorem collapse_fixed : ∀ (l : List (List Char)),
    (∀ t ∈ l, t ≠ []) → List.Chain' NoTwoSingles l → collapseAux [] l = l
  | [], _, _ => rfl
  | t :: ts, hne, hch => by
    have hts : ∀ v ∈ ts, v ≠ [] := fun v hv => hne v (List.mem_cons_of_mem t hv)
    obtain ⟨hhead, htail⟩ := List.chain'_cons'.mp hch
    by_cases h1 : t.length = 1
    · have htne : t ≠ [] := hne t (List.mem_cons_self t ts)
      have hshape : ts = [] ∨ ∃ u us, ts = u :: us ∧ ¬ u.length = 1 := by
        rcases ts with _ | ⟨u, us⟩
        · exact Or.inl rfl
        · refine Or.inr ⟨u, us, rfl, ?_⟩
          have := hhead u (by simp)
          exact fun hu => this ⟨h1, hu⟩
      have hstep : collapseAux [] (t :: ts) = collapseAux t ts := by
        rw [collapseAux_cons, if_pos h1]
        simp
      rw [hstep, collapseAux_emit t ts htne hshape,
        collapse_fixed ts hts htail]
    · have hstep : collapseAux [] (t :: ts) = t :: collapseAux [] ts := by
        rw [collapseAux_cons, if_neg h1]
        simp
      rw [hstep, collapse_fixed ts hts htail]

theorem joinSp_map_fixed : ∀ (ts : List (List Char)),
    (∀ t ∈ ts, ∀ c ∈ t, normChar c = c) →
    (joinSp ts).map normChar = joinSp ts
  | [], _ => rfl
  | [t], h => by
    show t.map normChar = t
    have := h t (List.mem_singleton.mpr rfl)
    calc t.map normChar = t.map id := List.map_congr_left this
      _ = t := List.map_id t
  | t :: u :: ts, h => by
    have hh := h t (List.mem_cons_self t (u :: ts))
    have hrest : ∀ v ∈ u :: ts, ∀ c ∈ v, normChar c = c :=
      fun v hv => h v (List.mem_cons_of_mem t hv)
    show (t ++ ' ' :: joinSp (u :: ts)).map normChar = t ++ ' ' :: joinSp (u :: ts)
    rw [List.map_append, List.map_cons, normChar_space,
      joinSp_map_fixed (u :: ts) hrest]
    congr 1
    calc t.map normChar = t.map id := List.map_congr_left hh
      _ = t := List.map_id t

/-- C2.  Normalization is idempotent: for every string `x`,
`normalize (normalize x) = normalize x` (spec-modelled `normalize` is
`normalizeMerchant`). -/
theorem normalizeMerchant_idempotent (x : String) :
    normalizeMerchant (normalizeMerchant x) = normalizeMerchant x := by
  unfold normalizeMerchant
  congr 1
  show joinSp (collapse (words
    ((joinSp (collapse (words (x.data.map normChar)))).map normChar)))
    = joinSp (collapse (words (x.data.map normChar)))
  have hQ : ∀ c ∈ x.data.map normChar, normChar c = c := by
    intro c hc
    obtain ⟨d, _, rfl⟩ := List.mem_map.mp hc
    exact normChar_idem d
  have hwords : ∀ t ∈ words (x.data.map normChar),
      t ≠ [] ∧ ∀ c ∈ t, ¬ c = ' ' ∧ normChar c = c :=
    wordsAux_wf (fun c => normChar c = c) (x.data.map normChar) []
      (by simp) hQ
  have hcoll : ∀ t ∈ collapse (words (x.data.map normChar)), TokOk t :=
    collapseAux_wf (words (x.data.map normChar)) [] (by simp)
      (fun t ht => ⟨(hwords t ht).1, (hwords t ht).2⟩)
  have hchain : List.Chain' NoTwoSingles (collapse (words (x.data.map normChar))) :=
    collapseAux_chain (words (x.data.map normChar)) []
  have hmapfix : (joinSp (collapse (words (x.data.map normChar)))).map normChar
      = joinSp (collapse (words (x.data.map normChar))) :=
    joinSp_map_fixed _ (fun t ht c hc => ((hcoll t ht).2 c hc).2)
  have hwj : words (joinSp (collapse (words (x.data.map normChar))))
      = collapse (words (x.data.map normChar)) :=
    words_joinSp _ (fun t ht => ⟨(hcoll t ht).1, fun c hc => ((hcoll t ht).2 c hc).1⟩)
  have hcfix : collapseAux [] (collapse (words (x.data.map normChar)))
      = collapse (words (x.data.map normChar)) :=
    collapse_fixed _ (fun t ht => (hcoll t ht).1) hchain
  rw [hmapfix, hwj]
  show joinSp (collapseAux [] (collapse (words (x.data.map normChar)))) = _
  rw [hcfix]

/-- C3.  Normalization is case- and separator-insensitive:
`normalize "H-E-B"`, `normalize "H E B"` and `normalize "HEB"` all
produce the same normalized string, namely `"heb"`. -/
theorem normalizeMerchant_separator_insensitive :
    normalizeMerchant "H-E-B" = normalizeMerchant "H E B"
  ∧ normalizeMerchant "H E B" = normalizeMerchant "HEB"
  ∧ normalizeMerchant "HEB" = "heb" := by
  refine ⟨?_, ?_, ?_⟩ <;> decide

theorem posTransform_pos (r : ℚ) : 0 < posTransform r := by
  unfold posTransform
  by_cases h : 0 ≤ r
  · rw [if_pos h]
    linarith
  · rw [if_neg h]
    push_neg at h
    have : (0 : ℚ) < 1 - r := by linarith
    exact div_pos one_pos this

theorem sum_map_div (l : List ℚ) (s : ℚ) :
    (l.map (fun x => x / s)).sum = l.sum / s := by
  induction l with
  | nil => simp
  | cons x l ih => simp [ih, add_div]

theorem predict_proba_mem (scores : List ℚ) (p : ℚ)
    (hp : p ∈ predict_proba scores) : 0 ≤ p ∧ p ≤ 1 := by
  unfold predict_proba at hp
  obtain ⟨x, hx, rfl⟩ := List.mem_map.mp hp
  obtain ⟨r, _, rfl⟩ := List.mem_map.mp hx
  have hpos : ∀ y ∈ scores.map posTransform, 0 < y := by
    intro y hy
    obtain ⟨r', _, rfl⟩ := List.mem_map.mp hy
    exact posTransform_pos r'
  have hne : scores.map posTransform ≠ [] :=
    List.ne_nil_of_mem hx
  have hsum : 0 < (scores.map posTransform).sum := List.sum_pos _ hpos hne
  constructor
  · exact le_of_lt (div_pos (posTransform_pos r) hsum)
  · rw [div_le_one hsum]
    exact List.single_le_sum (fun y hy => le_of_lt (hpos y hy)) _ hx

theorem predict_proba_sum (scores : List ℚ) (h : scores ≠ []) :
    (predict_proba scores).sum = 1 := by
  unfold predict_proba
  rw [sum_map_div]
  have hpos : ∀ y ∈ scores.map posTransform, 0 < y := by
    intro y hy
    obtain ⟨r', _, rfl⟩ := List.mem_map.mp hy
    exact posTransform_pos r'
  have hne : scores.map posTransform ≠ [] := by
    simpa using h
  have hsum : 0 < (scores.map posTransform).sum := List.sum_pos _ hpos hne
  exact div_self (ne_of_gt hsum)

/-- C4.  For every artifact produced by `train` and every merchant
string, the classifier's probability distribution over the full fixed
category set has one probability per category, every probability at
least `0`, and a sum within `1e-6` of `1` (here: exactly `1`). -/
theorem predict_proba_valid (ex : List TrainingExample) (a : Artifact)
    (h : train ex = Except.ok a) (m : String) :
    (predict_proba (a.rawScore m)).length = a.categories.length
  ∧ (∀ p ∈ predict_proba (a.rawScore m), 0 ≤ p)
  ∧ |(predict_proba (a.rawScore m)).sum - 1| ≤ 1 / 1000000 := by
  unfold train at h
  by_cases hc : ex.isEmpty ∨ ((ex.map (fun e => e.label)).dedup).length < 2
  · rw [if_pos hc] at h
    cases h
  · rw [if_neg hc] at h
    push_neg at hc
    obtain rfl := (Except.ok.injEq _ _).mp h.symm |> Eq.symm
    have hlen : 2 ≤ ((ex.map (fun e => e.label)).dedup).length := hc.2
    have hscore : trainedScore ex ((ex.map (fun e => e.label)).dedup) m ≠ [] := by
      unfold trainedScore
      intro hnil
      have hl2 := congrArg List.length hnil
      rw [List.length_map] at hl2
      simp only [List.length_nil] at hl2
      omega
    refine ⟨?_, ?_, ?_⟩
    · unfold predict_proba trainedScore
      simp
    · intro p hp
      exact (predict_proba_mem _ p hp).1
    · rw [predict_proba_sum _ hscore]
      norm_num

/-- Witness for C4: the probability-validity theorem applied to the
artifact trained on the spec's demo training set. -/
theorem predict_proba_valid_witness :
    (predict_proba (demoArtifact.rawScore "starbucks")).length
        = demoArtifact.categories.length
  ∧ (∀ p ∈ predict_proba (demoArtifact.rawScore "starbucks"), 0 ≤ p)
  ∧ |(predict_proba (demoArtifact.rawScore "starbucks")).sum - 1| ≤ 1 / 1000000 :=
  predict_proba_valid demoTrainingSet demoArtifact rfl "starbucks"

theorem indexLookup_exact (ex : List TrainingExample) (m : String)
    (h : m ∈ indexKeys ex) :
    indexLookup ex m = some (majorityFor ex m, 1) := by
  unfold indexLookup
  rw [if_pos h]

/-- C5.  For every artifact and every merchant string whose normalized
form exactly matches a training-set merchant, `categorize` returns that
merchant's majority training category with source = canonical-match and
confidence at least the acceptance threshold. -/
theorem categorize_canonical_match (a : Artifact) (s : String)
    (h : normalizeMerchant s ∈ indexKeys a.examples) :
    (categorize a s).source = ResultSource.canonicalMatch
  ∧ (categorize a s).category = majorityFor a.examples (normalizeMerchant s)
  ∧ acceptThreshold ≤ (categorize a s).confidence := by
  have hl := indexLookup_exact a.examples (normalizeMerchant s) h
  have hq : acceptThreshold ≤ (1 : ℚ) := by norm_num [acceptThreshold]
  unfold categorize
  split
  next cat q heq =>
    rw [hl] at heq
    have hpair := Option.some.inj heq
    have hcat : majorityFor a.examples (normalizeMerchant s) = cat :=
      congrArg Prod.fst hpair
    have hq1 : (1 : ℚ) = q := congrArg Prod.snd hpair
    subst hcat
    subst hq1
    rw [if_pos hq]
    exact ⟨rfl, rfl, hq⟩
  next heq =>
    rw [hl] at heq
    cases heq

/-- Witness for C5: the canonical-match theorem applied to the demo
artifact and the merchant string `"STARBUCKS"`, whose normalized form
`"starbucks"` appears in the training set. -/
theorem categorize_canonical_match_witness :
    (categorize demoArtifact "STARBUCKS").source = ResultSource.canonicalMatch
  ∧ (categorize demoArtifact "STARBUCKS").category
      = majorityFor demoArtifact.examples (normalizeMerchant "STARBUCKS")
  ∧ acceptThreshold ≤ (categorize demoArtifact "STARBUCKS").confidence :=
  categorize_canonical_match demoArtifact "STARBUCKS" (by decide)

/-- C6.  Training reports a ConfigurationError whenever the dataset is
empty or contains fewer than two distinct categories. -/
theorem train_configuration_error (ex : List TrainingExample)
    (h : ex = [] ∨ ((ex.map (fun e => e.label)).dedup).length < 2) :
    train ex = Except.error TrainError.configurationError := by
  unfold train
  rcases h with rfl | h
  · simp
  · rw [if_pos (Or.inr h)]

/-- Witness for C6: training on the spec's single-category dataset
(exactly one distinct category) reports the ConfigurationError. -/
theorem train_configuration_error_witness :
    train demoSingleCategorySet = Except.error TrainError.configurationError :=
  train_configuration_error demoSingleCategorySet (by decide)

/-- C7.  Every `categorize` call made before any successful train/load
reports ModelUnavailable, and no call in the unloaded state ever returns
a plausible-looking category. -/
theorem engineCategorize_model_unavailable (s : String) :
    engineCategorize EngineState.unloaded s
      = Except.error InferenceError.modelUnavailable
  ∧ ∀ r : ClassificationResult,
      engineCategorize EngineState.unloaded s ≠ Except.ok r := by
  refine ⟨rfl, ?_⟩
  intro r hr
  simp [engineCategorize] at hr

theorem foldl_best_bounds : ∀ (pairs : List (String × ℚ)) (b : String × ℚ),
    0 ≤ b.2 → b.2 ≤ 1 → (∀ p ∈ pairs, 0 ≤ p.2 ∧ p.2 ≤ 1) →
    0 ≤ (pairs.foldl (fun b p => if b.2 < p.2 then p else b) b).2
  ∧ (pairs.foldl (fun b p => if b.2 < p.2 then p else b) b).2 ≤ 1
  | [], b, h0, h1, _ => ⟨h0, h1⟩
  | p :: ps, b, h0, h1, hall => by
    have hp := hall p (List.mem_cons_self p ps)
    have hall' : ∀ q ∈ ps, 0 ≤ q.2 ∧ q.2 ≤ 1 :=
      fun q hq => hall q (List.mem_cons_of_mem p hq)
    simp only [List.foldl_cons]
    by_cases hlt : b.2 < p.2
    · rw [if_pos hlt]
      exact foldl_best_bounds ps p hp.1 hp.2 hall'
    · rw [if_neg hlt]
      exact foldl_best_bounds ps b h0 h1 hall'

theorem classifierResult_confidence (a : Artifact) (m : String) :
    0 ≤ (classifierResult a m).confidence
  ∧ (classifierResult a m).confidence ≤ 1 := by
  have hall : ∀ p ∈ a.categories.zip (predict_proba (a.rawScore m)),
      0 ≤ p.2 ∧ p.2 ≤ 1 := by
    intro p hp
    obtain ⟨c, q⟩ := p
    exact predict_proba_mem _ q (List.of_mem_zip hp).2
  exact foldl_best_bounds _ ("", 0) le_rfl (by norm_num) hall

/-- C8.  With a loaded artifact, inference is total on every string
(including empty and whitespace-only strings and strings sharing no
vocabulary with training): `categorize` is a total function and its
result always carries a confidence in `[0, 1]`. -/
theorem categorize_total_valid (a : Artifact) (s : String) :
    0 ≤ (categorize a s).confidence ∧ (categorize a s).confidence ≤ 1 := by
  by_cases hm : normalizeMerchant s ∈ indexKeys a.examples
  · have hl := indexLookup_exact a.examples (normalizeMerchant s) hm
    have hq : acceptThreshold ≤ (1 : ℚ) := by norm_num [acceptThreshold]
    unfold categorize
    split
    next cat q heq =>
      rw [hl] at heq
      have hpair := Option.some.inj heq
      have hq1 : (1 : ℚ) = q := congrArg Prod.snd hpair
      subst hq1
      rw [if_pos hq]
      exact ⟨by norm_num, le_refl 1⟩
    next heq =>
      rw [hl] at heq
      cases heq
  · have hl : indexLookup a.examples (normalizeMerchant s) = none := by
      unfold indexLookup
      rw [if_neg hm]
    unfold categorize
    split
    next cat q heq =>
      rw [hl] at heq
      cases heq
    next heq =>
      exact classifierResult_confidence a (normalizeMerchant s)
